import Mathlib

/-!
Verification of the FnO dashboard backend (`src/backend/app.py`) against its
specification.  The Python handlers are shallowly embedded as Lean functions:
dates are day numbers (`Nat`), decimal prices and strikes are `ℚ`, Python
dicts are insertion-ordered association lists (or lookup functions where only
lookup semantics matter), remote calls are function parameters, and a raised
exception is `Option.none` / an error response.
-/

namespace FnoDashboard

/-- One instrument record as used by `app.py` (fields accessed on the dicts
returned by `kite.instruments`).  `expiry` is a day number; `none` models an
absent/`None` expiry. -/
structure Instrument where
  instrument_token : Nat
  tradingsymbol : String
  name : String
  instrument_type : String
  expiry : Option Nat
  strike : ℚ
  lot_size : Nat
  deriving DecidableEq, Repr

/-- One price level of a depth snapshot; `price` is `none` when the level dict
has no "price" key (Python `level.get("price", 0)` then yields 0). -/
structure DepthLevel where
  price : Option ℚ
  deriving DecidableEq, Repr

/-- A depth snapshot.  `buy`/`sell` are `none` when the corresponding key is
absent (Python `depth.get("buy", [\x7b\x7d])` then defaults to a single empty
level). -/
structure Depth where
  buy : Option (List DepthLevel)
  sell : Option (List DepthLevel)
  deriving DecidableEq, Repr

/-- A quote as used by the option-chain builder; every field is optional, an
absent field models a missing dict key (Python `.get(key, 0)` yields 0, and a
missing/falsy "depth" yields bid = ask = 0). -/
structure Quote where
  last_price : Option ℚ
  oi : Option ℚ
  volume : Option ℚ
  depth : Option Depth
  deriving DecidableEq, Repr

/-- The `\x7b\x7d` Python dict used when a quote key is missing from
`all_quotes`. -/
def emptyQuote : Quote := ⟨none, none, none, none⟩

/-- One populated CALL or PUT leg of an option-chain row. -/
structure OptionLeg where
  instrument_token : Nat
  tradingsymbol : String
  last_price : ℚ
  oi : ℚ
  volume : ℚ
  bid : ℚ
  ask : ℚ
  lot_size : Nat
  deriving DecidableEq, Repr

/-- One row of the option chain: a strike with optional CALL (`CE`) and PUT
(`PE`) legs; a `none` leg is the explicit Python `None`. -/
structure Row where
  strike : ℚ
  CE : Option OptionLeg
  PE : Option OptionLeg
  deriving DecidableEq, Repr

/-- The JSON response of `/api/option-chain`: either the chain payload or an
error response with its HTTP status code. -/
inductive ChainResponse where
  | ok (symbol : String) (spot_price : ℚ) (expiry : Option Nat) (chain : List Row)
  | err (status : Nat)
  deriving DecidableEq, Repr

/-- Python's `str.upper()` (character-wise upper-casing, as
`String.toUpper`, but defined so that it reduces inside the kernel). -/
def pyUpper (s : String) : String := ⟨s.data.map Char.toUpper⟩

/-! ### `sorted(set(...))` on day numbers

The builder computes `expiries = sorted(set(o["expiry"] for o in options if
o.get("expiry")))`.  We model it by an insertion sort that drops duplicates,
and prove the characterising properties (strictly sorted, same members). -/

/-- Insert a day number into a strictly sorted list, dropping it if already
present. -/
def insertSorted (x : Nat) : List Nat → List Nat
  | [] => [x]
  | y :: ys =>
    if x < y then x :: y :: ys
    else if x = y then y :: ys
    else y :: insertSorted x ys

/-- `sorted(set(l))`: the strictly ascending list of the distinct elements of
`l`. -/
def sortedDedup (l : List Nat) : List Nat := l.foldr insertSorted []

theorem mem_insertSorted {x a : Nat} : ∀ {l : List Nat},
    a ∈ insertSorted x l ↔ a = x ∨ a ∈ l := by
  intro l
  induction l with
  | nil => simp [insertSorted]
  | cons y ys ih =>
    by_cases h1 : x < y
    · simp [insertSorted, h1]
    · by_cases h2 : x = y
      · subst h2
        simp only [insertSorted, if_neg h1, if_pos rfl, if_true, List.mem_cons]
        tauto
      · simp only [insertSorted, if_neg h1, if_neg h2, List.mem_cons, ih]
        tauto

theorem sorted_insertSorted {x : Nat} : ∀ {l : List Nat},
    l.Pairwise (· < ·) → (insertSorted x l).Pairwise (· < ·) := by
  intro l
  induction l with
  | nil => intro _; simp [insertSorted]
  | cons y ys ih =>
    intro hs
    rw [List.pairwise_cons] at hs
    by_cases h1 : x < y
    · simp only [insertSorted, if_pos h1, List.pairwise_cons]
      refine ⟨?_, hs⟩
      intro b hb
      rcases List.mem_cons.mp hb with rfl | hb
      · exact h1
      · exact Nat.lt_trans h1 (hs.1 b hb)
    · by_cases h2 : x = y
      · subst h2
        simp [insertSorted, h1, List.pairwise_cons.mpr hs]
      · simp only [insertSorted, if_neg h1, if_neg h2, List.pairwise_cons]
        refine ⟨?_, ih hs.2⟩
        intro b hb
        rcases mem_insertSorted.mp hb with rfl | hb
        · omega
        · exact hs.1 b hb

theorem mem_sortedDedup {a : Nat} : ∀ {l : List Nat},
    a ∈ sortedDedup l ↔ a ∈ l := by
  intro l
  induction l with
  | nil => simp [sortedDedup]
  | cons x xs ih =>
    simp only [sortedDedup, List.foldr_cons] at *
    rw [mem_insertSorted, ih, List.mem_cons]

theorem sorted_sortedDedup : ∀ {l : List Nat},
    (sortedDedup l).Pairwise (· < ·) := by
  intro l
  induction l with
  | nil => simp [sortedDedup]
  | cons x xs ih => exact sorted_insertSorted ih

/-! ### Expiry selection (§4.2 step 2, `app.py` lines 356–365) -/

/-- The expiry the builder settles on when the caller supplies none
(`app.py` 357–365): the earliest distinct expiry on or after `today` if one
exists, otherwise the latest expiry present, otherwise `none` (no contract
carries an expiry and the candidate list is left unfiltered). -/
def selectedExpiry (options : List Instrument) (today : Nat) : Option Nat :=
  match ((sortedDedup (options.filterMap (·.expiry))).filter
      (fun e => today ≤ e)).head? with
  | some nearest => some nearest
  | none => (sortedDedup (options.filterMap (·.expiry))).getLast?

/-- The no-expiry-supplied branch of the builder: keep the contracts whose
expiry equals the selected one (`app.py` 357–365); when no contract has an
expiry at all, the list is returned unchanged. -/
def selectByExpiry (options : List Instrument) (today : Nat) : List Instrument :=
  match selectedExpiry options today with
  | some sel => options.filter (fun o => o.expiry == some sel)
  | none => options

theorem head_filter_isLeast {p : Nat → Bool} :
    ∀ {l : List Nat}, l.Pairwise (· < ·) → ∀ {a},
      (l.filter p).head? = some a →
      a ∈ l ∧ p a = true ∧ ∀ b ∈ l, p b = true → a ≤ b := by
  intro l
  induction l with
  | nil => intro _ a h; simp at h
  | cons x xs ih =>
    intro hs a h
    rw [List.pairwise_cons] at hs
    rw [List.filter_cons] at h
    by_cases hx : p x = true
    · rw [if_pos hx, List.head?_cons, Option.some.injEq] at h
      subst h
      refine ⟨List.mem_cons_self x xs, hx, ?_⟩
      intro b hb _
      rcases List.mem_cons.mp hb with rfl | hb
      · exact Nat.le_refl b
      · exact Nat.le_of_lt (hs.1 b hb)
    · rw [if_neg hx] at h
      obtain ⟨ha, hpa, hmin⟩ := ih hs.2 h
      refine ⟨List.mem_cons_of_mem x ha, hpa, ?_⟩
      intro b hb hpb
      rcases List.mem_cons.mp hb with rfl | hb
      · exact absurd hpb hx
      · exact hmin b hb hpb

theorem getLast?_isGreatest : ∀ {l : List Nat}, l.Pairwise (· < ·) → ∀ {a},
    l.getLast? = some a → a ∈ l ∧ ∀ b ∈ l, b ≤ a := by
  intro l
  induction l with
  | nil => intro _ a h; simp at h
  | cons x xs ih =>
    intro hs a h
    rw [List.pairwise_cons] at hs
    cases xs with
    | nil =>
      simp only [List.getLast?_singleton, Option.some.injEq] at h
      subst h
      simp
    | cons y ys =>
      rw [List.getLast?_cons_cons] at h
      obtain ⟨ha, hmax⟩ := ih hs.2 h
      refine ⟨List.mem_cons_of_mem x ha, ?_⟩
      intro b hb
      rcases List.mem_cons.mp hb with rfl | hb
      · exact Nat.le_of_lt (hs.1 a ha)
      · exact hmax b hb

theorem filter_head?_eq_none {p : Nat → Bool} : ∀ {l : List Nat},
    (l.filter p).head? = none ↔ ∀ b ∈ l, ¬ p b = true := by
  intro l
  rw [List.head?_eq_none_iff, List.filter_eq_nil_iff]

/-! ### Batched quote fetch (§4.1, `app.py` lines 370–383)

`for i in range(0, len(tokens), batch_size)` with `batch = tokens[i:i+200]` is
modelled by chunking the token list into pieces of 200.  The recursion is
fuelled by the list length so that the definition is structural (and hence
evaluates by `rfl`/`decide`). -/

def chunksGo {α : Type} : Nat → List α → List (List α)
  | _, [] => []
  | 0, _ :: _ => []
  | fuel + 1, x :: xs => ((x :: xs).take 200) :: chunksGo fuel ((x :: xs).drop 200)

/-- The slices `tokens[i:i+200]` for `i = 0, 200, 400, ...`. -/
def chunks200 {α : Type} (l : List α) : List (List α) := chunksGo l.length l

/-- `str(o["instrument_token"])`. -/
def tokenStr (o : Instrument) : String := toString o.instrument_token

/-- The quote identifier `"NFO:" + o["tradingsymbol"]` used both for the
batched quote call and for the chain lookup. -/
def quoteId (o : Instrument) : String := "NFO:" ++ o.tradingsymbol

/-- `[f"NFO:\x7bo['tradingsymbol']\x7d" for o in options if
str(o["instrument_token"]) in batch]` (`app.py` line 378). -/
def batchIds (options : List Instrument) (batch : List String) : List String :=
  (options.filter (fun o => decide (tokenStr o ∈ batch))).map quoteId

/-- `all_quotes.update(quotes)`: lookup semantics of a Python dict update —
keys present in `res` win, all others fall back to the old mapping. -/
def dictUpdate (m : String → Option Quote) (res : List (String × Quote)) :
    String → Option Quote :=
  fun k => match res.lookup k with
    | some v => some v
    | none => m k

/-- One iteration of the batch loop (`app.py` 379–383): attempt the provider
call once; on success merge into `all_quotes`, on failure log and skip.  The
second component records the identifier lists of the attempted calls (one
entry per issued provider call). -/
def fetchStep (fetch : List String → Option (List (String × Quote)))
    (acc : (String → Option Quote) × List (List String)) (ids : List String) :
    (String → Option Quote) × List (List String) :=
  match fetch ids with
  | some res => (dictUpdate acc.1 res, acc.2 ++ [ids])
  | none => (acc.1, acc.2 ++ [ids])

/-- The batch loop run over explicitly given identifier batches. -/
def fetchFold (fetch : List String → Option (List (String × Quote)))
    (idBatches : List (List String)) :
    (String → Option Quote) × List (List String) :=
  idBatches.foldl (fetchStep fetch) (fun _ => none, [])

/-- The whole batched quote fetch of `app.py` lines 371–383: chunk the token
strings into slices of 200, rebuild each slice's `instrument_ids` by
filtering `options`, and fold the per-batch fetch. -/
def fetchAllQuotes (fetch : List String → Option (List (String × Quote)))
    (options : List Instrument) :
    (String → Option Quote) × List (List String) :=
  (chunks200 (options.map tokenStr)).foldl
    (fun acc batch => fetchStep fetch acc (batchIds options batch))
    (fun _ => none, [])

theorem chunksGo_join {α : Type} :
    ∀ (fuel : Nat) (l : List α), l.length ≤ fuel → (chunksGo fuel l).flatten = l := by
  intro fuel
  induction fuel with
  | zero =>
    intro l h
    cases l with
    | nil => rfl
    | cons x xs => simp at h
  | succ n ih =>
    intro l h
    cases l with
    | nil => rfl
    | cons x xs =>
      simp only [chunksGo, List.flatten_cons]
      rw [ih ((x :: xs).drop 200) (by simp [List.length_drop] at *; omega)]
      exact List.take_append_drop 200 (x :: xs)

theorem chunksGo_length {α : Type} :
    ∀ (fuel : Nat) (l : List α), l.length ≤ fuel →
      (chunksGo fuel l).length = (l.length + 199) / 200 := by
  intro fuel
  induction fuel with
  | zero =>
    intro l h
    cases l with
    | nil => simp [chunksGo]
    | cons x xs => simp at h
  | succ n ih =>
    intro l h
    cases l with
    | nil => simp [chunksGo]
    | cons x xs =>
      simp only [chunksGo, List.length_cons]
      rw [ih ((x :: xs).drop 200) (by simp [List.length_drop] at *; omega)]
      simp only [List.length_drop, List.length_cons]
      omega

theorem chunksGo_mem_length {α : Type} {c : List α} :
    ∀ {fuel : Nat} {l : List α}, c ∈ chunksGo fuel l → c.length ≤ 200 := by
  intro fuel
  induction fuel with
  | zero =>
    intro l h
    cases l <;> simp [chunksGo] at h
  | succ n ih =>
    intro l h
    cases l with
    | nil => simp [chunksGo] at h
    | cons x xs =>
      simp only [chunksGo, List.mem_cons] at h
      rcases h with rfl | h
      · simp [List.length_take]
      · exact ih h

theorem chunksGo_mem_ne_nil {α : Type} {c : List α} :
    ∀ {fuel : Nat} {l : List α}, c ∈ chunksGo fuel l → c ≠ [] := by
  intro fuel
  induction fuel with
  | zero =>
    intro l h
    cases l <;> simp [chunksGo] at h
  | succ n ih =>
    intro l h
    cases l with
    | nil => simp [chunksGo] at h
    | cons x xs =>
      simp only [chunksGo, List.mem_cons] at h
      rcases h with rfl | h
      · simp [List.take]
      · exact ih h

theorem chunksGo_decomp {α : Type} {c : List α} :
    ∀ {fuel : Nat} {l : List α}, l.length ≤ fuel → c ∈ chunksGo fuel l →
      ∃ pre suf, l = pre ++ c ++ suf := by
  intro fuel
  induction fuel with
  | zero =>
    intro l _ h
    cases l <;> simp [chunksGo] at h
  | succ n ih =>
    intro l hlen h
    cases l with
    | nil => simp [chunksGo] at h
    | cons x xs =>
      simp only [chunksGo, List.mem_cons] at h
      rcases h with rfl | h
      · exact ⟨[], (x :: xs).drop 200, by
          simp [List.take_append_drop]⟩
      · obtain ⟨pre, suf, hps⟩ :=
          ih (l := (x :: xs).drop 200) (by simp [List.length_drop] at *; omega) h
        refine ⟨(x :: xs).take 200 ++ pre, suf, ?_⟩
        conv_lhs => rw [← List.take_append_drop 200 (x :: xs)]
        rw [hps]
        simp

theorem chunksGo_map {α β : Type} (f : α → β) :
    ∀ (fuel : Nat) (l : List α),
      chunksGo fuel (l.map f) = (chunksGo fuel l).map (List.map f) := by
  intro fuel
  induction fuel with
  | zero =>
    intro l
    cases l <;> rfl
  | succ n ih =>
    intro l
    cases l with
    | nil => rfl
    | cons x xs =>
      simp only [List.map_cons, chunksGo]
      rw [← List.map_cons f x xs, ← List.map_take, ← List.map_drop, ih]

theorem chunks200_map {α β : Type} (f : α → β) (l : List α) :
    chunks200 (l.map f) = (chunks200 l).map (List.map f) := by
  unfold chunks200
  rw [List.length_map, chunksGo_map]

theorem lookup_mem {α β : Type} [DecidableEq α] {k : α} {v : β} :
    ∀ {res : List (α × β)}, res.lookup k = some v → (k, v) ∈ res := by
  intro res
  induction res with
  | nil => intro h; simp [List.lookup] at h
  | cons p rest ih =>
    intro h
    obtain ⟨a, b⟩ := p
    rw [List.lookup_cons] at h
    by_cases hk : k = a
    · subst hk
      simp only [beq_self_eq_true] at h
      cases h
      exact List.mem_cons_self _ _
    · simp only [beq_eq_false_iff_ne.mpr hk] at h
      exact List.mem_cons_of_mem _ (ih h)

theorem lookup_of_mem_nodup {α β : Type} [DecidableEq α] {k : α} {v : β} :
    ∀ {res : List (α × β)}, (res.map Prod.fst).Nodup →
      (k, v) ∈ res → res.lookup k = some v := by
  intro res
  induction res with
  | nil => intro _ h; simp at h
  | cons p rest ih =>
    intro hnd h
    obtain ⟨a, b⟩ := p
    simp only [List.map_cons, List.nodup_cons] at hnd
    rw [List.lookup_cons]
    rcases List.mem_cons.mp h with heq | hmem
    · cases heq
      simp
    · have hka : k ≠ a := by
        intro hk
        subst hk
        exact hnd.1 (List.mem_map_of_mem Prod.fst hmem)
      simp only [beq_eq_false_iff_ne.mpr hka]
      exact ih hnd.2 hmem

theorem lookup_isSome_iff {α β : Type} [DecidableEq α] {k : α} :
    ∀ {l : List (α × β)}, (l.lookup k).isSome ↔ k ∈ l.map Prod.fst := by
  intro l
  induction l with
  | nil => simp [List.lookup]
  | cons p rest ih =>
    obtain ⟨a, b⟩ := p
    rw [List.lookup_cons]
    by_cases hk : k = a
    · subst hk
      simp
    · simp only [beq_eq_false_iff_ne.mpr hk, List.map_cons, List.mem_cons, ih]
      tauto

theorem lookup_map_update_self {α β : Type} [DecidableEq α] (k : α)
    (f : α × β → β) :
    ∀ (l : List (α × β)),
      (l.map (fun p => if p.1 = k then (p.1, f p) else p)).lookup k =
        (l.lookup k).map (fun v => f (k, v)) := by
  intro l
  induction l with
  | nil => rfl
  | cons p rest ih =>
    obtain ⟨a, b⟩ := p
    by_cases hk : a = k
    · subst hk
      simp [List.lookup_cons]
    · have hk2 : ¬ k = a := fun h => hk h.symm
      simp only [List.map_cons, if_neg hk, List.lookup_cons,
        beq_eq_false_iff_ne.mpr hk2, ih]

theorem lookup_map_update_other {α β : Type} [DecidableEq α] {s k : α}
    (hs : s ≠ k) (f : α × β → β) :
    ∀ (l : List (α × β)),
      (l.map (fun p => if p.1 = k then (p.1, f p) else p)).lookup s =
        l.lookup s := by
  intro l
  induction l with
  | nil => rfl
  | cons p rest ih =>
    obtain ⟨a, b⟩ := p
    by_cases hk : a = k
    · subst hk
      simp [List.lookup_cons, beq_eq_false_iff_ne.mpr hs, ih]
    · simp only [List.map_cons, if_neg hk, List.lookup_cons]
      cases hsa : (s == a) <;> simp [ih]

theorem lookup_append {α β : Type} [DecidableEq α] (k : α) :
    ∀ (l1 l2 : List (α × β)),
      (l1 ++ l2).lookup k =
        match l1.lookup k with
        | some v => some v
        | none => l2.lookup k := by
  intro l1 l2
  induction l1 with
  | nil => simp [List.lookup]
  | cons p rest ih =>
    obtain ⟨a, b⟩ := p
    rw [List.cons_append, List.lookup_cons, List.lookup_cons]
    cases hka : (k == a)
    · simp [ih]
    · simp

theorem foldl_fetchStep_attempts
    (fetch : List String → Option (List (String × Quote))) :
    ∀ (bs : List (List String)) (acc : (String → Option Quote) × List (List String)),
      (bs.foldl (fetchStep fetch) acc).2 = acc.2 ++ bs := by
  intro bs
  induction bs with
  | nil => intro acc; simp
  | cons b rest ih =>
    intro acc
    rw [List.foldl_cons, ih]
    unfold fetchStep
    cases fetch b <;> simp

theorem fetchFold_attempts (fetch : List String → Option (List (String × Quote)))
    (bs : List (List String)) : (fetchFold fetch bs).2 = bs := by
  unfold fetchFold
  rw [foldl_fetchStep_attempts]
  simp

/-- If no successful batch in `bs` requests key `k`, the fold leaves the
mapping at `k` unchanged. -/
theorem foldl_fetchStep_preserve
    {fetch : List String → Option (List (String × Quote))}
    (hkeys : ∀ ids res, fetch ids = some res → ∀ p ∈ res, p.1 ∈ ids) :
    ∀ (bs : List (List String)) (acc : (String → Option Quote) × List (List String))
      (k : String), (∀ b ∈ bs, fetch b = none ∨ k ∉ b) →
      (bs.foldl (fetchStep fetch) acc).1 k = acc.1 k := by
  intro bs
  induction bs with
  | nil => intro acc k _; rfl
  | cons b rest ih =>
    intro acc k hb
    rw [List.foldl_cons]
    rw [ih _ k (fun b hbmem => hb b (List.mem_cons_of_mem _ hbmem))]
    rcases hb b (List.mem_cons_self _ _) with hfail | hout
    · unfold fetchStep
      rw [hfail]
    · unfold fetchStep
      cases hres : fetch b with
      | none => rfl
      | some res =>
        simp only [dictUpdate]
        cases hl : res.lookup k with
        | none => rfl
        | some v => exact absurd (hkeys b res hres _ (lookup_mem hl)) hout

/-- A key/value pair returned by a successful batch survives into the merged
mapping, provided no other batch in `bs` requests the same key. -/
theorem foldl_fetchStep_success
    {fetch : List String → Option (List (String × Quote))}
    (hkeys : ∀ ids res, fetch ids = some res → ∀ p ∈ res, p.1 ∈ ids)
    (hnodup : ∀ ids res, fetch ids = some res → (res.map Prod.fst).Nodup) :
    ∀ (bs : List (List String)) (acc : (String → Option Quote) × List (List String))
      (ids : List String) (res : List (String × Quote)) (k : String) (v : Quote),
      ids ∈ bs → fetch ids = some res → (k, v) ∈ res →
      (∀ b ∈ bs, b ≠ ids → k ∉ b) →
      (bs.foldl (fetchStep fetch) acc).1 k = some v := by
  intro bs
  induction bs with
  | nil => intro acc ids res k v h; simp at h
  | cons b rest ih =>
    intro acc ids res k v hmem hres hkv honly
    rw [List.foldl_cons]
    by_cases hr : ids ∈ rest
    · exact ih _ ids res k v hr hres hkv
        (fun b hb => honly b (List.mem_cons_of_mem _ hb))
    · have hb : b = ids := by
        rcases List.mem_cons.mp hmem with h | h
        · exact h.symm
        · exact absurd h hr
      subst hb
      rw [foldl_fetchStep_preserve hkeys]
      · unfold fetchStep
        rw [hres]
        simp only [dictUpdate]
        rw [lookup_of_mem_nodup (hnodup b res hres) hkv]
      · intro b2 hb2
        right
        have hne : b2 ≠ b := by
          rintro rfl
          exact hr hb2
        exact honly b2 (List.mem_cons_of_mem _ hb2) hne

/-- Every key/value pair of the merged mapping originates in some successful
batch. -/
theorem foldl_fetchStep_source
    {fetch : List String → Option (List (String × Quote))} :
    ∀ (bs : List (List String)) (acc : (String → Option Quote) × List (List String))
      (k : String) (v : Quote),
      (bs.foldl (fetchStep fetch) acc).1 k = some v →
      (∃ b ∈ bs, ∃ res, fetch b = some res ∧ (k, v) ∈ res) ∨ acc.1 k = some v := by
  intro bs
  induction bs with
  | nil => intro acc k v h; exact Or.inr h
  | cons b rest ih =>
    intro acc k v h
    rw [List.foldl_cons] at h
    rcases ih _ k v h with ⟨b2, hb2, res, hres, hkv⟩ | hacc
    · exact Or.inl ⟨b2, List.mem_cons_of_mem _ hb2, res, hres, hkv⟩
    · unfold fetchStep at hacc
      cases hres : fetch b with
      | none =>
        rw [hres] at hacc
        exact Or.inr hacc
      | some res =>
        rw [hres] at hacc
        simp only [dictUpdate] at hacc
        cases hl : res.lookup k with
        | none =>
          rw [hl] at hacc
          exact Or.inr hacc
        | some v2 =>
          rw [hl] at hacc
          cases hacc
          exact Or.inl ⟨b, List.mem_cons_self _ _, res, hres, lookup_mem hl⟩

/-- In a list of lists whose concatenation has no duplicates, an element of
one member occurs in no other member. -/
theorem flatten_nodup_unique {α : Type} {k : α} :
    ∀ {bs : List (List α)}, bs.flatten.Nodup → ∀ {ids}, ids ∈ bs → k ∈ ids →
      ∀ b ∈ bs, b ≠ ids → k ∉ b := by
  intro bs
  induction bs with
  | nil => intro _ ids h; simp at h
  | cons b rest ih =>
    intro hnd ids hids hk b2 hb2 hne
    rw [List.flatten_cons, List.nodup_append] at hnd
    rcases List.mem_cons.mp hids with rfl | hids2
    · rcases List.mem_cons.mp hb2 with rfl | hb2
      · exact absurd rfl hne
      · intro hkb2
        exact hnd.2.2 hk (List.mem_flatten.mpr ⟨b2, hb2, hkb2⟩)
    · rcases List.mem_cons.mp hb2 with rfl | hb2
      · intro hkb2
        exact hnd.2.2 hkb2 (List.mem_flatten.mpr ⟨ids, hids2, hk⟩)
      · exact ih hnd.2.1 hids2 hk b2 hb2 hne

theorem filter_contains_middle (pre mid suf : List Instrument)
    (hnd : ((pre ++ mid ++ suf).map tokenStr).Nodup) :
    (pre ++ mid ++ suf).filter
      (fun o => decide (tokenStr o ∈ mid.map tokenStr)) = mid := by
  rw [List.append_assoc] at hnd ⊢
  rw [List.map_append, List.map_append, List.nodup_append] at hnd
  obtain ⟨hpre, hms, hdisj⟩ := hnd
  rw [List.nodup_append] at hms
  obtain ⟨hmid, hsuf, hdisj2⟩ := hms
  rw [List.filter_append, List.filter_append]
  have h1 : pre.filter (fun o => decide (tokenStr o ∈ mid.map tokenStr)) = [] := by
    rw [List.filter_eq_nil_iff]
    intro o ho
    simp only [decide_eq_true_eq]
    intro hmem
    exact hdisj (List.mem_map_of_mem tokenStr ho) (List.mem_append_left _ hmem)
  have h2 : mid.filter (fun o => decide (tokenStr o ∈ mid.map tokenStr)) = mid := by
    rw [List.filter_eq_self]
    intro o ho
    simp only [decide_eq_true_eq]
    exact List.mem_map_of_mem tokenStr ho
  have h3 : suf.filter (fun o => decide (tokenStr o ∈ mid.map tokenStr)) = [] := by
    rw [List.filter_eq_nil_iff]
    intro o ho
    simp only [decide_eq_true_eq]
    intro hmem
    exact hdisj2 hmem (List.mem_map_of_mem tokenStr ho)
  rw [h1, h2, h3, List.nil_append, List.append_nil]

/-- With distinct token strings, the identifiers rebuilt for a batch
(`app.py` line 378) are exactly the corresponding slice of the full
identifier list, so the batch loop is a fold over 200-sized id slices. -/
theorem fetchAllQuotes_eq_fetchFold
    (fetch : List String → Option (List (String × Quote)))
    (options : List Instrument) (hnd : (options.map tokenStr).Nodup) :
    fetchAllQuotes fetch options =
      fetchFold fetch ((chunks200 options).map (List.map quoteId)) := by
  unfold fetchAllQuotes fetchFold
  rw [chunks200_map tokenStr options, List.foldl_map, List.foldl_map]
  apply List.foldl_ext
  intro acc c hc
  have hdec := @chunksGo_decomp _ _ options.length _ (le_refl _) hc
  obtain ⟨pre, suf, hps⟩ := hdec
  have : batchIds options (c.map tokenStr) = c.map quoteId := by
    unfold batchIds
    rw [hps, filter_contains_middle pre c suf (hps ▸ hnd)]
  rw [this]

/-! ### Chain construction (`app.py` lines 400–435) -/

/-- Top-of-book extraction
`quote.get("depth", \x7b\x7d).get("buy", [\x7b\x7d])[0].get("price", 0)`:
an absent side defaults to one empty level whose missing price reads as 0;
`none` models the `IndexError` raised when the side is present but empty. -/
def topOfBook (side : Option (List DepthLevel)) : Option ℚ :=
  match (side.getD [⟨none⟩]).head? with
  | some lvl => some (lvl.price.getD 0)
  | none => none

/-- Build one CALL/PUT leg dict (`app.py` 413–422); missing quote fields read
as 0 and an absent (or falsy) depth yields bid = ask = 0.  `none` models a
raised `IndexError` from indexing an empty depth side. -/
def mkLeg (opt : Instrument) (quote : Quote) : Option OptionLeg :=
  let bid? : Option ℚ :=
    match quote.depth with
    | some d => topOfBook d.buy
    | none => some 0
  let ask? : Option ℚ :=
    match quote.depth with
    | some d => topOfBook d.sell
    | none => some 0
  match bid?, ask? with
  | some b, some a =>
    some { instrument_token := opt.instrument_token
           tradingsymbol := opt.tradingsymbol
           last_price := quote.last_price.getD 0
           oi := quote.oi.getD 0
           volume := quote.volume.getD 0
           bid := b
           ask := a
           lot_size := opt.lot_size }
  | _, _ => none

/-- `chain[strike][opt_type] = leg`; the loop only ever sees `opt_type` in
("CE", "PE") because of the catalog filter. -/
def setLeg (row : Row) (opt_type : String) (leg : OptionLeg) : Row :=
  if opt_type = "CE" then { row with CE := some leg }
  else { row with PE := some leg }

/-- One iteration of the chain-building loop (`app.py` 403–422): look up the
quote (missing → empty dict), create the row for a fresh strike with both
legs `None`, and store the leg under the contract's kind. -/
def buildStep (quotes : String → Option Quote) (chain : List (ℚ × Row))
    (opt : Instrument) : Option (List (ℚ × Row)) :=
  match mkLeg opt ((quotes (quoteId opt)).getD emptyQuote) with
  | some leg =>
    some ((if (chain.lookup opt.strike).isSome then chain
      else chain ++ [(opt.strike, ⟨opt.strike, none, none⟩)]).map (fun p =>
        if p.1 = opt.strike then (p.1, setLeg p.2 opt.instrument_type leg) else p))
  | none => none

/-- The chain-building loop over all filtered contracts. -/
def buildChain (quotes : String → Option Quote) :
    List (ℚ × Row) → List Instrument → Option (List (ℚ × Row))
  | chain, [] => some chain
  | chain, o :: os =>
    match buildStep quotes chain o with
    | some chain1 => buildChain quotes chain1 os
    | none => none

/-- The strike order on rows used by the final
`sorted(chain.values(), key=lambda x: x["strike"])`. -/
def rowLE (a b : Row) : Prop := a.strike ≤ b.strike

instance : DecidableRel rowLE := fun a b => inferInstanceAs (Decidable (_ ≤ _))

instance : IsTotal Row rowLE := ⟨fun a b => le_total a.strike b.strike⟩

instance : IsTrans Row rowLE := ⟨fun _ _ _ h1 h2 => le_trans h1 h2⟩

/-- `sorted(chain.values(), key=lambda x: x["strike"])`: a stable sort of the
rows by strike (strikes are dict keys, hence duplicate-free, so any sort
agrees with Python's). -/
def sortRows (rows : List Row) : List Row := rows.insertionSort rowLE

/-- Build the strike-keyed dict over the filtered contracts and sort its rows
by strike; `none` models a raised exception (caught by the handler as a
500). -/
def chainRows (quotes : String → Option Quote) (options : List Instrument) :
    Option (List Row) :=
  (buildChain quotes [] options).map (fun chain => sortRows (chain.map Prod.snd))

/-- The tail of the handler after expiry filtering (`app.py` 367–439): 404
when the filtered set is empty, otherwise batched quote fetch (partial on
batch failures), chain build and sort; the response `expiry` field is the
first expiry seen on a filtered contract.  A raised exception during the
build surfaces as a 500. -/
def finishChain (options2 : List Instrument) (symbol_upper : String)
    (fetch : List String → Option (List (String × Quote))) (spot_price : ℚ) :
    ChainResponse :=
  if options2.isEmpty then .err 404
  else
    match chainRows (fetchAllQuotes fetch options2).1 options2 with
    | some rows =>
      .ok symbol_upper spot_price ((options2.filterMap (·.expiry)).head?) rows
    | none => .err 500

/-- The `/api/option-chain` handler (`app.py` 324–439).  `instruments` is the
NFO catalog; `expiry_arg` models the `expiry` query parameter (`none`:
absent, `some none`: supplied but not parseable as a calendar date — the
`datetime.strptime` call raises and the outer `except` answers 500,
`some (some d)`: parsed date `d`); `fetch` is `kite.quote` (`none` = raised
exception); `spot_price` is the best-effort spot lookup result (0 on
failure), never read by the chain itself. -/
def catalogOptions (instruments : List Instrument) (symbol_upper : String) :
    List Instrument :=
  instruments.filter (fun i =>
    pyUpper i.name == symbol_upper &&
      (i.instrument_type == "CE" || i.instrument_type == "PE"))

/-- The `/api/option-chain` handler itself (`app.py` 324–439); see the
parameter conventions documented above, and `catalogOptions` for the
symbol/kind filter (`app.py` 343–347). -/
def get_option_chain (instruments : List Instrument) (symbol : String)
    (expiry_arg : Option (Option Nat)) (today : Nat)
    (fetch : List String → Option (List (String × Quote)))
    (spot_price : ℚ) : ChainResponse :=
  if symbol = "" then .err 400
  else if (catalogOptions instruments (pyUpper symbol)).isEmpty then .err 404
  else
    match expiry_arg with
    | some none => .err 500
    | some (some d) =>
      finishChain ((catalogOptions instruments (pyUpper symbol)).filter
        (fun o => o.expiry == some d)) (pyUpper symbol) fetch spot_price
    | none =>
      finishChain (selectByExpiry (catalogOptions instruments (pyUpper symbol)) today)
        (pyUpper symbol) fetch spot_price

/-! ### Scanner nearest-future selection (`app.py` lines 603–615) -/

/-- The scanner's futures pre-filter (`app.py` 603–606): FUT contracts whose
upper-cased name is among the target symbols. -/
def scannerFutures (nfo : List Instrument) (targets : List String) :
    List Instrument :=
  nfo.filter (fun i =>
    i.instrument_type == "FUT" && decide (pyUpper i.name ∈ targets))

/-- One step of `futures_by_symbol` (`app.py` 610–615): a future is
considered only when its expiry exists and is on or after today, and it
replaces the stored one only when strictly earlier (ties keep the first
encountered).  Stored entries always carry an expiry, so the inner `none`
fallback is unreachable. -/
def scannerStep (today : Nat) (m : List (String × Instrument))
    (f : Instrument) : List (String × Instrument) :=
  match f.expiry with
  | some exp =>
    if today ≤ exp then
      match m.lookup (pyUpper f.name) with
      | none => m ++ [(pyUpper f.name, f)]
      | some g =>
        match g.expiry with
        | some ge =>
          if exp < ge then
            m.map (fun p => if p.1 = (pyUpper f.name) then (p.1, f) else p)
          else m
        | none => m
    else m
  | none => m

/-- `futures_by_symbol` (`app.py` 608–615). -/
def futures_by_symbol (futs : List Instrument) (today : Nat) :
    List (String × Instrument) :=
  futs.foldl (scannerStep today) []

/-- The expiry of the future the scanner keeps for `sym`, if any. -/
def scannerSelectedExpiry (futs : List Instrument) (today : Nat)
    (sym : String) : Option Nat :=
  ((futures_by_symbol futs today).lookup sym).bind (·.expiry)

/-! ### Live tick buffer (`app.py` lines 480–572) -/

/-- The OHLC snapshot relayed on a tick. -/
structure TickOHLC where
  openPrice : Option ℚ
  highPrice : Option ℚ
  lowPrice : Option ℚ
  closePrice : Option ℚ
  deriving DecidableEq, Repr

/-- One inbound raw tick (fields read via `.get` in `on_ticks`). -/
structure RawTick where
  instrument_token : Nat
  last_price : Option ℚ
  volume_traded : Option ℚ
  oi : Option ℚ
  ohlc : Option TickOHLC
  change : Option ℚ
  deriving DecidableEq, Repr

/-- One stored entry of the `live_ticks` buffer. -/
structure LiveTick where
  instrument_token : Nat
  last_price : Option ℚ
  volume : Option ℚ
  oi : Option ℚ
  ohlc : Option TickOHLC
  change : Option ℚ
  timestamp : Nat
  deriving DecidableEq, Repr

/-- The module-level mutable state touched by the live-tick endpoints: the
optional active ticker connection (identified abstractly by a number) and
the `live_ticks` buffer, an insertion-ordered dict keyed by instrument
token. -/
structure LiveState where
  kws : Option Nat
  live_ticks : List (Nat × LiveTick)
  deriving DecidableEq, Repr

/-- `live_ticks[token] = \x7b...\x7d`: dict upsert preserving insertion
order. -/
def upsertTick (m : List (Nat × LiveTick)) (k : Nat) (v : LiveTick) :
    List (Nat × LiveTick) :=
  if (m.lookup k).isSome then m.map (fun p => if p.1 = k then (k, v) else p)
  else m ++ [(k, v)]

/-- The `on_ticks` stream callback (`app.py` 509–520): upsert every tick of
the inbound batch, overwriting all fields and stamping the capture time
`now`. -/
def on_ticks (s : LiveState) (ticks : List RawTick) (now : Nat) : LiveState :=
  { s with live_ticks := ticks.foldl (fun m t =>
      upsertTick m t.instrument_token
        { instrument_token := t.instrument_token
          last_price := t.last_price
          volume := t.volume_traded
          oi := t.oi
          ohlc := t.ohlc
          change := t.change
          timestamp := now }) s.live_ticks }

/-- The `/api/live/ticks` handler (`app.py` 550–557): with a non-empty token
filter return the filtered buffer, otherwise the whole buffer; the buffer is
never mutated. -/
def get_live_ticks (s : LiveState) (tokens : List Nat) :
    List (Nat × LiveTick) :=
  if tokens.isEmpty then s.live_ticks
  else s.live_ticks.filter (fun p => decide (p.1 ∈ tokens))

/-- The `/api/live/subscribe` handler (`app.py` 482–545): reject an empty
token list (400, state untouched), otherwise best-effort close of any prior
connection (errors swallowed — the result does not depend on `closeFails`),
install a fresh connection and return; `live_ticks` is never written.  The
`Bool` is `true` on the success response. -/
def subscribe_live (s : LiveState) (tokens : List Nat) (mode : String)
    (newConn : Nat) (closeFails : Bool) : LiveState × Bool :=
  if tokens.isEmpty then (s, false)
  else ({ kws := some newConn, live_ticks := s.live_ticks }, true)

/-- The `/api/live/unsubscribe` handler (`app.py` 562–572): best-effort close
(errors swallowed — the result does not depend on `closeFails`), drop the
connection and clear the entire buffer. -/
def unsubscribe_live (s : LiveState) (closeFails : Bool) : LiveState :=
  { kws := none, live_ticks := [] }

/-! ### Chain-building invariants -/

/-- Structural invariants of the strike-keyed chain dict: keys are
duplicate-free and every row records its own key as its `strike`. -/
def ChainInv (chain : List (ℚ × Row)) : Prop :=
  (chain.map Prod.fst).Nodup ∧ ∀ p ∈ chain, p.2.strike = p.1

theorem setLeg_strike (r : Row) (t : String) (leg : OptionLeg) :
    (setLeg r t leg).strike = r.strike := by
  unfold setLeg
  split <;> rfl

theorem map_fst_update {α β : Type} [DecidableEq α] (l : List (α × β)) (k : α)
    (f : α × β → β) :
    (l.map (fun p => if p.1 = k then (p.1, f p) else p)).map Prod.fst =
      l.map Prod.fst := by
  rw [List.map_map]
  apply List.map_congr_left
  intro p _
  by_cases h : p.1 = k <;> simp [h]

theorem buildStep_cases {q : String → Option Quote} {chain : List (ℚ × Row)}
    {o : Instrument} {chain1 : List (ℚ × Row)}
    (h : buildStep q chain o = some chain1) :
    ∃ leg, mkLeg o ((q (quoteId o)).getD emptyQuote) = some leg ∧
      chain1 = (if (chain.lookup o.strike).isSome then chain
        else chain ++ [(o.strike, ⟨o.strike, none, none⟩)]).map (fun p =>
          if p.1 = o.strike then (p.1, setLeg p.2 o.instrument_type leg) else p) := by
  unfold buildStep at h
  cases hleg : mkLeg o ((q (quoteId o)).getD emptyQuote) with
  | none => rw [hleg] at h; cases h
  | some leg =>
    rw [hleg] at h
    cases h
    exact ⟨leg, rfl, rfl⟩

theorem buildStep_inv {q : String → Option Quote} {chain : List (ℚ × Row)}
    {o : Instrument} {chain1 : List (ℚ × Row)} (hinv : ChainInv chain)
    (h : buildStep q chain o = some chain1) : ChainInv chain1 := by
  obtain ⟨leg, _, rfl⟩ := buildStep_cases h
  have hbase : ChainInv (if (chain.lookup o.strike).isSome then chain
      else chain ++ [(o.strike, ⟨o.strike, none, none⟩)]) := by
    by_cases hp : (chain.lookup o.strike).isSome
    · rw [if_pos hp]; exact hinv
    · rw [if_neg hp]
      constructor
      · rw [List.map_append]
        rw [List.nodup_append]
        refine ⟨hinv.1, by simp, ?_⟩
        intro a ha hb
        simp only [List.map_cons, List.map_nil, List.mem_cons,
          List.not_mem_nil, or_false] at hb
        subst hb
        exact hp (lookup_isSome_iff.mpr ha)
      · intro p hp2
        rcases List.mem_append.mp hp2 with hmem | hmem
        · exact hinv.2 p hmem
        · simp only [List.mem_cons, List.not_mem_nil, or_false] at hmem
          subst hmem
          rfl
  constructor
  · rw [map_fst_update]
    exact hbase.1
  · intro p hp2
    obtain ⟨p0, hp0, hup⟩ := List.mem_map.mp hp2
    by_cases hk : p0.1 = o.strike
    · rw [if_pos hk] at hup
      subst hup
      simp [setLeg_strike, hbase.2 p0 hp0]
    · rw [if_neg hk] at hup
      subst hup
      exact hbase.2 p0 hp0

theorem buildChain_inv {q : String → Option Quote} :
    ∀ {os : List Instrument} {chain0 chain1 : List (ℚ × Row)},
      ChainInv chain0 → buildChain q chain0 os = some chain1 →
      ChainInv chain1 := by
  intro os
  induction os with
  | nil =>
    intro chain0 chain1 hinv h
    cases h
    exact hinv
  | cons o rest ih =>
    intro chain0 chain1 hinv h
    unfold buildChain at h
    cases hstep : buildStep q chain0 o with
    | none => rw [hstep] at h; cases h
    | some chain2 =>
      rw [hstep] at h
      exact ih (buildStep_inv hinv hstep) h

theorem buildStep_lookup_other {q : String → Option Quote}
    {chain chain1 : List (ℚ × Row)} {o : Instrument} {s : ℚ}
    (hs : s ≠ o.strike) (h : buildStep q chain o = some chain1) :
    chain1.lookup s = chain.lookup s := by
  obtain ⟨leg, _, rfl⟩ := buildStep_cases h
  rw [lookup_map_update_other hs]
  by_cases hp : (chain.lookup o.strike).isSome
  · rw [if_pos hp]
  · rw [if_neg hp, lookup_append]
    cases hcs : chain.lookup s
    · simp [List.lookup_cons, beq_eq_false_iff_ne.mpr hs]
    · rfl

theorem buildStep_lookup_self {q : String → Option Quote}
    {chain chain1 : List (ℚ × Row)} {o : Instrument}
    (h : buildStep q chain o = some chain1) :
    ∃ leg, mkLeg o ((q (quoteId o)).getD emptyQuote) = some leg ∧
      chain1.lookup o.strike =
        some (setLeg ((chain.lookup o.strike).getD ⟨o.strike, none, none⟩)
          o.instrument_type leg) := by
  obtain ⟨leg, hleg, rfl⟩ := buildStep_cases h
  refine ⟨leg, hleg, ?_⟩
  rw [lookup_map_update_self]
  by_cases hp : (chain.lookup o.strike).isSome
  · rw [if_pos hp]
    obtain ⟨r, hr⟩ := Option.isSome_iff_exists.mp hp
    rw [hr]
    rfl
  · rw [if_neg hp, lookup_append]
    rw [Option.not_isSome_iff_eq_none.mp hp]
    simp [List.lookup_cons]

theorem buildStep_isSome_mono {q : String → Option Quote}
    {chain chain1 : List (ℚ × Row)} {o : Instrument} {s : ℚ}
    (hp : (chain.lookup s).isSome) (h : buildStep q chain o = some chain1) :
    (chain1.lookup s).isSome := by
  by_cases hs : s = o.strike
  · subst hs
    obtain ⟨leg, _, hsel⟩ := buildStep_lookup_self h
    rw [hsel]
    rfl
  · rw [buildStep_lookup_other hs h]
    exact hp

theorem buildChain_isSome_mono {q : String → Option Quote} {s : ℚ} :
    ∀ {os : List Instrument} {chain0 chain1 : List (ℚ × Row)},
      (chain0.lookup s).isSome → buildChain q chain0 os = some chain1 →
      (chain1.lookup s).isSome := by
  intro os
  induction os with
  | nil =>
    intro chain0 chain1 hp h
    cases h
    exact hp
  | cons o rest ih =>
    intro chain0 chain1 hp h
    unfold buildChain at h
    cases hstep : buildStep q chain0 o with
    | none => rw [hstep] at h; cases h
    | some chain2 =>
      rw [hstep] at h
      exact ih (buildStep_isSome_mono hp hstep) h

theorem buildChain_key_exists {q : String → Option Quote} :
    ∀ {os : List Instrument} {chain0 chain1 : List (ℚ × Row)},
      buildChain q chain0 os = some chain1 →
      ∀ o ∈ os, (chain1.lookup o.strike).isSome := by
  intro os
  induction os with
  | nil =>
    intro chain0 chain1 _ o ho
    simp at ho
  | cons o2 rest ih =>
    intro chain0 chain1 h o ho
    unfold buildChain at h
    cases hstep : buildStep q chain0 o2 with
    | none => rw [hstep] at h; cases h
    | some chain2 =>
      rw [hstep] at h
      rcases List.mem_cons.mp ho with rfl | ho2
      · obtain ⟨leg, _, hsel⟩ := buildStep_lookup_self hstep
        exact buildChain_isSome_mono (by rw [hsel]; rfl) h
      · exact ih h o ho2

/-- The PE leg currently stored at strike `s` (missing row reads as `none`,
matching the freshly inserted row's `None`). -/
def peAt (chain : List (ℚ × Row)) (s : ℚ) : Option OptionLeg :=
  match chain.lookup s with
  | some r => r.PE
  | none => none

/-- The CE leg currently stored at strike `s`. -/
def ceAt (chain : List (ℚ × Row)) (s : ℚ) : Option OptionLeg :=
  match chain.lookup s with
  | some r => r.CE
  | none => none

theorem buildChain_peAt {q : String → Option Quote} {s : ℚ} :
    ∀ {os : List Instrument} {chain0 chain1 : List (ℚ × Row)},
      (∀ o ∈ os, o.instrument_type = "CE" ∨ o.instrument_type = "PE") →
      (∀ o ∈ os, o.strike = s → o.instrument_type ≠ "PE") →
      buildChain q chain0 os = some chain1 →
      peAt chain1 s = peAt chain0 s := by
  intro os
  induction os with
  | nil =>
    intro chain0 chain1 _ _ h
    cases h
    rfl
  | cons o rest ih =>
    intro chain0 chain1 htype hnope h
    unfold buildChain at h
    cases hstep : buildStep q chain0 o with
    | none => rw [hstep] at h; cases h
    | some chain2 =>
      rw [hstep] at h
      have hrest := ih (fun o2 ho2 => htype o2 (List.mem_cons_of_mem _ ho2))
        (fun o2 ho2 => hnope o2 (List.mem_cons_of_mem _ ho2)) h
      rw [hrest]
      by_cases hs : s = o.strike
      · subst hs
        have hce : o.instrument_type = "CE" := by
          rcases htype o (List.mem_cons_self _ _) with hc | hp
          · exact hc
          · exact absurd hp (hnope o (List.mem_cons_self _ _) rfl)
        obtain ⟨leg, _, hsel⟩ := buildStep_lookup_self hstep
        unfold peAt
        rw [hsel, hce]
        unfold setLeg
        rw [if_pos rfl]
        cases hcs : chain0.lookup o.strike <;> simp [hcs]
      · unfold peAt
        rw [buildStep_lookup_other hs hstep]

theorem buildChain_ceAt {q : String → Option Quote} {s : ℚ} :
    ∀ {os : List Instrument} {chain0 chain1 : List (ℚ × Row)},
      (∀ o ∈ os, o.instrument_type = "CE" ∨ o.instrument_type = "PE") →
      (∀ o ∈ os, o.strike = s → o.instrument_type ≠ "CE") →
      buildChain q chain0 os = some chain1 →
      ceAt chain1 s = ceAt chain0 s := by
  intro os
  induction os with
  | nil =>
    intro chain0 chain1 _ _ h
    cases h
    rfl
  | cons o rest ih =>
    intro chain0 chain1 htype hnoce h
    unfold buildChain at h
    cases hstep : buildStep q chain0 o with
    | none => rw [hstep] at h; cases h
    | some chain2 =>
      rw [hstep] at h
      have hrest := ih (fun o2 ho2 => htype o2 (List.mem_cons_of_mem _ ho2))
        (fun o2 ho2 => hnoce o2 (List.mem_cons_of_mem _ ho2)) h
      rw [hrest]
      by_cases hs : s = o.strike
      · subst hs
        have hpe : o.instrument_type = "PE" := by
          rcases htype o (List.mem_cons_self _ _) with hc | hp
          · exact absurd hc (hnoce o (List.mem_cons_self _ _) rfl)
          · exact hp
        obtain ⟨leg, _, hsel⟩ := buildStep_lookup_self hstep
        unfold ceAt
        rw [hsel, hpe]
        unfold setLeg
        rw [if_neg (by decide : ¬ ("PE" : String) = "CE")]
        cases hcs : chain0.lookup o.strike <;> simp [hcs]
      · unfold ceAt
        rw [buildStep_lookup_other hs hstep]

theorem sortRows_strikes {rows : List Row} (hnd : (rows.map Row.strike).Nodup) :
    ((sortRows rows).map Row.strike).Pairwise (· < ·) := by
  have hperm : (sortRows rows).Perm rows := List.perm_insertionSort rowLE rows
  have hsorted : List.Sorted rowLE (sortRows rows) :=
    List.sorted_insertionSort rowLE rows
  have hnd2 : ((sortRows rows).map Row.strike).Nodup :=
    ((hperm.map Row.strike).nodup_iff).mpr hnd
  have hne : (sortRows rows).Pairwise (fun a b => a.strike ≠ b.strike) :=
    List.pairwise_map.mp hnd2
  rw [List.pairwise_map]
  exact (hsorted.and hne).imp (fun hab => lt_of_le_of_ne hab.1 hab.2)

theorem mem_sortRows {rows : List Row} {r : Row} :
    r ∈ sortRows rows ↔ r ∈ rows :=
  (List.perm_insertionSort rowLE rows).mem_iff

theorem finishChain_ok {options2 : List Instrument} {su : String} {sp : ℚ}
    {fetch : List String → Option (List (String × Quote))}
    {s2 : String} {sp2 : ℚ} {e : Option Nat} {rows : List Row}
    (h : finishChain options2 su fetch sp = .ok s2 sp2 e rows) :
    ∃ chain, buildChain (fetchAllQuotes fetch options2).1 [] options2 = some chain ∧
      rows = sortRows (chain.map Prod.snd) := by
  unfold finishChain at h
  by_cases hemp : options2.isEmpty
  · rw [if_pos hemp] at h
    exact ChainResponse.noConfusion h
  · rw [if_neg hemp] at h
    unfold chainRows at h
    cases hb : buildChain (fetchAllQuotes fetch options2).1 [] options2 with
    | none =>
      rw [hb] at h
      exact ChainResponse.noConfusion h
    | some chain =>
      rw [hb] at h
      simp only [Option.map_some'] at h
      injection h with h1 h2 h3 h4
      exact ⟨chain, rfl, h4.symm⟩

theorem finishChain_strikes {options2 : List Instrument} {su : String} {sp : ℚ}
    {fetch : List String → Option (List (String × Quote))}
    {s2 : String} {sp2 : ℚ} {e : Option Nat} {rows : List Row}
    (h : finishChain options2 su fetch sp = .ok s2 sp2 e rows) :
    (rows.map Row.strike).Pairwise (· < ·) := by
  obtain ⟨chain, hb, rfl⟩ := finishChain_ok h
  have hinv : ChainInv chain := buildChain_inv ⟨by simp, by simp⟩ hb
  have hkeys : (chain.map Prod.snd).map Row.strike = chain.map Prod.fst := by
    rw [List.map_map]
    apply List.map_congr_left
    intro p hp
    exact hinv.2 p hp
  apply sortRows_strikes
  rw [hkeys]
  exact hinv.1

/-- **C1**: whenever the option-chain endpoint answers successfully (which it
does exactly when at least one contract matches the requested symbol and the
selected expiry), the returned chain is sorted strictly ascending by strike —
in particular it contains at most one row per strike. -/
theorem optionChain_sorted_strikes
    {instruments : List Instrument} {symbol : String}
    {expiry_arg : Option (Option Nat)} {today : Nat}
    {fetch : List String → Option (List (String × Quote))} {spot : ℚ}
    {s2 : String} {sp2 : ℚ} {e : Option Nat} {rows : List Row}
    (h : get_option_chain instruments symbol expiry_arg today fetch spot =
      .ok s2 sp2 e rows) :
    (rows.map Row.strike).Pairwise (· < ·) ∧ (rows.map Row.strike).Nodup := by
  have hlt : (rows.map Row.strike).Pairwise (· < ·) := by
    unfold get_option_chain at h
    by_cases h0 : symbol = ""
    · rw [if_pos h0] at h
      exact ChainResponse.noConfusion h
    · rw [if_neg h0] at h
      by_cases h1 : (catalogOptions instruments (pyUpper symbol)).isEmpty
      · rw [if_pos h1] at h
        exact ChainResponse.noConfusion h
      · rw [if_neg h1] at h
        match expiry_arg with
        | some none => exact ChainResponse.noConfusion h
        | some (some d) => exact finishChain_strikes h
        | none => exact finishChain_strikes h
  exact ⟨hlt, hlt.imp ne_of_lt⟩

/-- Sample contracts used to instantiate the theorems on concrete inputs. -/
def sampleCE : Instrument := ⟨1, "XCE100", "X", "CE", some 20, 100, 50⟩

def samplePE : Instrument := ⟨2, "XPE90", "X", "PE", some 20, 90, 50⟩

def sampleCE2 : Instrument := ⟨3, "XCE90", "X", "CE", some 25, 90, 50⟩

/-- A zero-filled leg as produced for a contract whose quote is missing. -/
def zeroLeg (o : Instrument) : OptionLeg :=
  ⟨o.instrument_token, o.tradingsymbol, 0, 0, 0, 0, 0, o.lot_size⟩

theorem optionChain_sorted_strikes_witness :
    (([⟨90, none, some (zeroLeg samplePE)⟩,
       ⟨100, some (zeroLeg sampleCE), none⟩] : List Row).map Row.strike).Pairwise
        (· < ·) ∧
    (([⟨90, none, some (zeroLeg samplePE)⟩,
       ⟨100, some (zeroLeg sampleCE), none⟩] : List Row).map Row.strike).Nodup :=
  @optionChain_sorted_strikes [sampleCE, samplePE, sampleCE2] "X"
    none 15 (fun _ => none) 0 "X" 0 (some 20)
    [⟨90, none, some (zeroLeg samplePE)⟩, ⟨100, some (zeroLeg sampleCE), none⟩]
    (by decide)

/-- **C2**: with a non-empty matching contract set carrying at least one
expiry and no caller-supplied expiry, the builder keeps exactly the
contracts whose expiry equals a selected expiry `sel`; `sel` is the earliest
expiry on or after today when one exists, and otherwise the latest expiry
present. -/
theorem selectByExpiry_spec (options : List Instrument) (today : Nat)
    (hne : options ≠ [])
    (hex : ∃ o ∈ options, o.expiry ≠ none) :
    ∃ sel,
      selectByExpiry options today =
        options.filter (fun o => o.expiry == some sel) ∧
      (∃ o ∈ options, o.expiry = some sel) ∧
      ((∃ o ∈ options, ∃ e, o.expiry = some e ∧ today ≤ e) →
        today ≤ sel ∧
          ∀ o ∈ options, ∀ e, o.expiry = some e → today ≤ e → sel ≤ e) ∧
      ((¬ ∃ o ∈ options, ∃ e, o.expiry = some e ∧ today ≤ e) →
        ∀ o ∈ options, ∀ e, o.expiry = some e → e ≤ sel) := by
  have hmem : ∀ e : Nat,
      e ∈ sortedDedup (options.filterMap (·.expiry)) ↔
        ∃ o ∈ options, o.expiry = some e := by
    intro e
    rw [mem_sortedDedup, List.mem_filterMap]
  unfold selectByExpiry selectedExpiry
  cases hh : ((sortedDedup (options.filterMap (·.expiry))).filter
      (fun e => today ≤ e)).head? with
  | some nearest =>
    obtain ⟨hin, hup, hmin⟩ := head_filter_isLeast sorted_sortedDedup hh
    refine ⟨nearest, rfl, (hmem nearest).mp hin, ?_, ?_⟩
    · intro _
      refine ⟨of_decide_eq_true hup, ?_⟩
      intro o ho e he hte
      exact hmin e ((hmem e).mpr ⟨o, ho, he⟩) (decide_eq_true hte)
    · intro hnot
      obtain ⟨o, ho, hoe⟩ := (hmem nearest).mp hin
      exact absurd ⟨o, ho, nearest, hoe, of_decide_eq_true hup⟩ hnot
  | none =>
    have hnoup : ∀ b ∈ sortedDedup (options.filterMap (·.expiry)),
        ¬ today ≤ b := by
      intro b hb htb
      exact filter_head?_eq_none.mp hh b hb (decide_eq_true htb)
    obtain ⟨o, ho, hoe⟩ := hex
    obtain ⟨e0, he0⟩ := Option.ne_none_iff_exists'.mp hoe
    have hne2 : sortedDedup (options.filterMap (·.expiry)) ≠ [] :=
      List.ne_nil_of_mem ((hmem e0).mpr ⟨o, ho, he0⟩)
    obtain ⟨last, hlast⟩ :=
      Option.isSome_iff_exists.mp (List.getLast?_isSome.mpr hne2)
    obtain ⟨hlin, hlmax⟩ := getLast?_isGreatest sorted_sortedDedup hlast
    rw [hlast]
    refine ⟨last, rfl, (hmem last).mp hlin, ?_, ?_⟩
    · intro hup
      obtain ⟨o2, ho2, e2, he2, hte2⟩ := hup
      exact absurd hte2 (hnoup e2 ((hmem e2).mpr ⟨o2, ho2, he2⟩))
    · intro _ o2 ho2 e2 he2
      exact hlmax e2 ((hmem e2).mpr ⟨o2, ho2, he2⟩)

theorem selectByExpiry_spec_witness :
    ∃ sel,
      selectByExpiry [sampleCE, samplePE, sampleCE2] 15 =
        ([sampleCE, samplePE, sampleCE2].filter (fun o => o.expiry == some sel)) ∧
      (∃ o ∈ [sampleCE, samplePE, sampleCE2], o.expiry = some sel) ∧
      ((∃ o ∈ [sampleCE, samplePE, sampleCE2], ∃ e, o.expiry = some e ∧ 15 ≤ e) →
        15 ≤ sel ∧
          ∀ o ∈ [sampleCE, samplePE, sampleCE2], ∀ e, o.expiry = some e →
            15 ≤ e → sel ≤ e) ∧
      ((¬ ∃ o ∈ [sampleCE, samplePE, sampleCE2], ∃ e, o.expiry = some e ∧ 15 ≤ e) →
        ∀ o ∈ [sampleCE, samplePE, sampleCE2], ∀ e, o.expiry = some e → e ≤ sel) :=
  selectByExpiry_spec [sampleCE, samplePE, sampleCE2] 15 (by decide)
    ⟨sampleCE, by decide, by decide⟩

/-- **C5 counterexample**: on a catalog with a matching contract, supplying
an unparseable expiry string makes the handler answer a 500 (the
`datetime.strptime` exception is caught by the generic handler), not the
400-equivalent the claim asks for. -/
theorem optionChain_unparseable_expiry_cex :
    get_option_chain [sampleCE] "X" (some none) 15 (fun _ => none) 0 =
      .err 500 ∧
    ¬ get_option_chain [sampleCE] "X" (some none) 15 (fun _ => none) 0 =
      .err 400 := by
  exact ⟨by decide, by decide⟩

/-- **C5 amended**: for every option-chain request on a catalog with at
least one matching contract, an expiry string that cannot be parsed as a
calendar date makes the handler fail with the generic 500-equivalent error
response (the parse exception propagates to the outer handler), not a
400. -/
theorem optionChain_unparseable_expiry_500
    (instruments : List Instrument) (symbol : String) (today : Nat)
    (fetch : List String → Option (List (String × Quote))) (spot : ℚ)
    (hsym : ¬ symbol = "")
    (hopts : (catalogOptions instruments (pyUpper symbol)).isEmpty = false) :
    get_option_chain instruments symbol (some none) today fetch spot =
      .err 500 := by
  unfold get_option_chain
  rw [if_neg hsym, if_neg (by rw [hopts]; exact Bool.false_ne_true)]

theorem optionChain_unparseable_expiry_500_witness :
    get_option_chain [sampleCE] "x" (some none) 15 (fun _ => none) 0 =
      .err 500 :=
  optionChain_unparseable_expiry_500 [sampleCE] "x" 15
    (fun _ => none) 0 (by decide) (by decide)

/-- **C6**: (1) every filtered contract's strike gets a row in the returned
chain, and when no PE (resp. CE) contract exists at that strike the row's PE
(resp. CE) slot is explicitly `none` rather than the row being omitted;
(2) a leg whose quote is missing from the fetched mapping is built, without
error, with zero last price, open interest, volume, bid and ask (bid/ask
read as zero because the depth snapshot is absent from the empty quote). -/
theorem chain_single_leg_and_missing_quote :
    (∀ (options2 : List Instrument)
       (fetch : List String → Option (List (String × Quote)))
       (su : String) (sp : ℚ) (s2 : String) (sp2 : ℚ) (e : Option Nat)
       (rows : List Row),
       (∀ o ∈ options2, o.instrument_type = "CE" ∨ o.instrument_type = "PE") →
       finishChain options2 su fetch sp = .ok s2 sp2 e rows →
       ∀ o ∈ options2, ∃ row ∈ rows, row.strike = o.strike ∧
         ((∀ o2 ∈ options2, o2.strike = o.strike → o2.instrument_type ≠ "PE") →
           row.PE = none) ∧
         ((∀ o2 ∈ options2, o2.strike = o.strike → o2.instrument_type ≠ "CE") →
           row.CE = none)) ∧
    (∀ (o : Instrument) (m : String → Option Quote),
       m (quoteId o) = none →
       mkLeg o ((m (quoteId o)).getD emptyQuote) = some (zeroLeg o)) := by
  constructor
  · intro options2 fetch su sp s2 sp2 e rows htype hok o ho
    obtain ⟨chain, hb, rfl⟩ := finishChain_ok hok
    have hinv := buildChain_inv ⟨by simp, by simp⟩ hb
    obtain ⟨r, hr⟩ :=
      Option.isSome_iff_exists.mp (buildChain_key_exists hb o ho)
    have hmem : (o.strike, r) ∈ chain := lookup_mem hr
    refine ⟨r, mem_sortRows.mpr (List.mem_map_of_mem Prod.snd hmem),
      hinv.2 _ hmem, ?_, ?_⟩
    · intro hnope
      have hpe := buildChain_peAt (s := o.strike) htype hnope hb
      unfold peAt at hpe
      rw [hr] at hpe
      simpa using hpe
    · intro hnoce
      have hce := buildChain_ceAt (s := o.strike) htype hnoce hb
      unfold ceAt at hce
      rw [hr] at hce
      simpa using hce
  · intro o m h
    rw [h]
    rfl

theorem chain_single_leg_and_missing_quote_witness :
    (∃ row ∈ [(⟨90, none, some (zeroLeg samplePE)⟩ : Row),
        ⟨100, some (zeroLeg sampleCE), none⟩],
      row.strike = sampleCE.strike ∧
      ((∀ o2 ∈ [sampleCE, samplePE], o2.strike = sampleCE.strike →
          o2.instrument_type ≠ "PE") → row.PE = none) ∧
      ((∀ o2 ∈ [sampleCE, samplePE], o2.strike = sampleCE.strike →
          o2.instrument_type ≠ "CE") → row.CE = none)) ∧
    mkLeg sampleCE (((fun _ => (none : Option Quote)) (quoteId sampleCE)).getD
      emptyQuote) = some (zeroLeg sampleCE) :=
  ⟨chain_single_leg_and_missing_quote.1 [sampleCE, samplePE] (fun _ => none)
      "X" 0 "X" 0 (some 20)
      [⟨90, none, some (zeroLeg samplePE)⟩, ⟨100, some (zeroLeg sampleCE), none⟩]
      (by decide) (by decide) sampleCE (by decide),
    chain_single_leg_and_missing_quote.2 sampleCE (fun _ => none) rfl⟩

/-- **C7**: after `unsubscribe`, the buffer holds no entry for any token —
regardless of whether closing the streaming connection failed (the error is
swallowed) — so a subsequent poll, filtered or not, returns an empty
mapping. -/
theorem unsubscribe_clears_buffer (s : LiveState) (closeFails : Bool)
    (tokens : List Nat) :
    (unsubscribe_live s closeFails).live_ticks = [] ∧
    get_live_ticks (unsubscribe_live s closeFails) tokens = [] := by
  refine ⟨rfl, ?_⟩
  unfold get_live_ticks unsubscribe_live
  by_cases h : tokens.isEmpty
  · rw [if_pos h]
  · rw [if_neg h]
    rfl

/-- **C10**: the subscribe handler never writes the tick buffer: on both its
400 branch and its success branch (for any tokens, mode, fresh connection
and close-failure behaviour) the buffer is exactly the prior one, so every
poll — also for tokens outside the new subscription — answers as before. -/
theorem subscribe_preserves_buffer (s : LiveState) (tokens : List Nat)
    (mode : String) (newConn : Nat) (closeFails : Bool) (query : List Nat) :
    (subscribe_live s tokens mode newConn closeFails).1.live_ticks =
      s.live_ticks ∧
    get_live_ticks (subscribe_live s tokens mode newConn closeFails).1 query =
      get_live_ticks s query := by
  unfold subscribe_live
  by_cases h : tokens.isEmpty
  · rw [if_pos h]
    exact ⟨rfl, rfl⟩
  · rw [if_neg h]
    exact ⟨rfl, rfl⟩

/-! ### Batched-fetch claim assembly -/

theorem fetchAllQuotes_attempts
    (fetch : List String → Option (List (String × Quote)))
    (options : List Instrument) (hnd : (options.map tokenStr).Nodup) :
    (fetchAllQuotes fetch options).2 = (chunks200 options).map (List.map quoteId) := by
  rw [fetchAllQuotes_eq_fetchFold fetch options hnd, fetchFold_attempts]

theorem fetchAllQuotes_flatten
    (fetch : List String → Option (List (String × Quote)))
    (options : List Instrument) (hnd : (options.map tokenStr).Nodup) :
    (fetchAllQuotes fetch options).2.flatten = options.map quoteId := by
  rw [fetchAllQuotes_attempts fetch options hnd, ← List.map_flatten]
  unfold chunks200
  rw [chunksGo_join _ _ (le_refl _)]

theorem fetchAllQuotes_success_persists
    (fetch : List String → Option (List (String × Quote)))
    (options : List Instrument)
    (hndTok : (options.map tokenStr).Nodup)
    (hndId : (options.map quoteId).Nodup)
    (hkeys : ∀ ids res, fetch ids = some res → ∀ p ∈ res, p.1 ∈ ids)
    (hres : ∀ ids res, fetch ids = some res → (res.map Prod.fst).Nodup) :
    ∀ ids ∈ (fetchAllQuotes fetch options).2, ∀ res, fetch ids = some res →
      ∀ k v, (k, v) ∈ res → (fetchAllQuotes fetch options).1 k = some v := by
  intro ids hids res hresEq k v hkv
  have hatt := fetchAllQuotes_attempts fetch options hndTok
  have hflat := fetchAllQuotes_flatten fetch options hndTok
  have hidsbs : ids ∈ (chunks200 options).map (List.map quoteId) := by
    rw [← hatt]
    exact hids
  have hjn : ((chunks200 options).map (List.map quoteId)).flatten.Nodup := by
    rw [← hatt, hflat]
    exact hndId
  have honly : ∀ b ∈ (chunks200 options).map (List.map quoteId),
      b ≠ ids → k ∉ b :=
    flatten_nodup_unique hjn hidsbs (hkeys ids res hresEq (k, v) hkv)
  rw [fetchAllQuotes_eq_fetchFold fetch options hndTok]
  unfold fetchFold
  exact foldl_fetchStep_success hkeys hres _ _ ids res k v hidsbs hresEq hkv honly

theorem nodup_of_flatten_nodup {α : Type} :
    ∀ {bs : List (List α)}, bs.flatten.Nodup → (∀ b ∈ bs, b ≠ []) → bs.Nodup := by
  intro bs
  induction bs with
  | nil => intro _ _; exact List.nodup_nil
  | cons b rest ih =>
    intro hnd hne
    rw [List.flatten_cons, List.nodup_append] at hnd
    rw [List.nodup_cons]
    constructor
    · intro hbrest
      obtain ⟨x, hx⟩ :=
        List.exists_mem_of_ne_nil b (hne b (List.mem_cons_self _ _))
      exact hnd.2.2 hx (List.mem_flatten.mpr ⟨b, hbrest, hx⟩)
    · exact ih hnd.2.1 (fun b2 hb2 => hne b2 (List.mem_cons_of_mem _ hb2))

/-- **C3**: the batched fetch over `N` identifiers (all distinct) issues
exactly `⌈N/200⌉` provider calls; every call's batch has at most 200
identifiers and the batches concatenate, in order, to the full identifier
list; every key/value pair answered by a successful batch is in the merged
mapping (later batches never overwrite it), and every entry of the merged
mapping comes from some successful batch (the merge is their union). -/
theorem batched_fetch_spec
    (fetch : List String → Option (List (String × Quote)))
    (options : List Instrument)
    (hndTok : (options.map tokenStr).Nodup)
    (hndId : (options.map quoteId).Nodup)
    (hkeys : ∀ ids res, fetch ids = some res → ∀ p ∈ res, p.1 ∈ ids)
    (hres : ∀ ids res, fetch ids = some res → (res.map Prod.fst).Nodup) :
    (fetchAllQuotes fetch options).2.length = (options.length + 199) / 200 ∧
    (∀ b ∈ (fetchAllQuotes fetch options).2, b.length ≤ 200) ∧
    (fetchAllQuotes fetch options).2.flatten = options.map quoteId ∧
    (∀ ids ∈ (fetchAllQuotes fetch options).2, ∀ res, fetch ids = some res →
      ∀ k v, (k, v) ∈ res → (fetchAllQuotes fetch options).1 k = some v) ∧
    (∀ k v, (fetchAllQuotes fetch options).1 k = some v →
      ∃ ids ∈ (fetchAllQuotes fetch options).2, ∃ res,
        fetch ids = some res ∧ (k, v) ∈ res) := by
  have hatt := fetchAllQuotes_attempts fetch options hndTok
  refine ⟨?_, ?_, fetchAllQuotes_flatten fetch options hndTok,
    fetchAllQuotes_success_persists fetch options hndTok hndId hkeys hres, ?_⟩
  · rw [hatt, List.length_map]
    unfold chunks200
    exact chunksGo_length _ _ (le_refl _)
  · intro b hb
    rw [hatt] at hb
    obtain ⟨c, hc, rfl⟩ := List.mem_map.mp hb
    rw [List.length_map]
    exact chunksGo_mem_length hc
  · intro k v hkv
    rw [fetchAllQuotes_eq_fetchFold fetch options hndTok] at hkv
    unfold fetchFold at hkv
    rcases foldl_fetchStep_source _ _ k v hkv with ⟨b, hb, res2, hre, hkvres⟩ | habs
    · exact ⟨b, by rw [hatt]; exact hb, res2, hre, hkvres⟩
    · exact Option.noConfusion habs

/-- **C4**: when one batch of the quote fetch fails, the fetch still returns
a mapping (no error): the attempt list contains no batch twice — so the
failed batch, being a member, was attempted exactly once (no retry) — all
the failed batch's identifiers are simply absent from the merged mapping,
and every other, successful batch's data is present. -/
theorem batched_fetch_partial_failure
    (fetch : List String → Option (List (String × Quote)))
    (options : List Instrument)
    (hndTok : (options.map tokenStr).Nodup)
    (hndId : (options.map quoteId).Nodup)
    (hkeys : ∀ ids res, fetch ids = some res → ∀ p ∈ res, p.1 ∈ ids)
    (hres : ∀ ids res, fetch ids = some res → (res.map Prod.fst).Nodup)
    (failIds : List String)
    (hfmem : failIds ∈ (fetchAllQuotes fetch options).2)
    (hfail : fetch failIds = none) :
    (fetchAllQuotes fetch options).2.Nodup ∧
    (∀ k ∈ failIds, (fetchAllQuotes fetch options).1 k = none) ∧
    (∀ ids ∈ (fetchAllQuotes fetch options).2, ∀ res, fetch ids = some res →
      ∀ k v, (k, v) ∈ res → (fetchAllQuotes fetch options).1 k = some v) := by
  have hatt := fetchAllQuotes_attempts fetch options hndTok
  have hjn : ((chunks200 options).map (List.map quoteId)).flatten.Nodup := by
    rw [← hatt, fetchAllQuotes_flatten fetch options hndTok]
    exact hndId
  have hnn : ∀ b ∈ (chunks200 options).map (List.map quoteId), b ≠ [] := by
    intro b hb
    obtain ⟨c, hc, rfl⟩ := List.mem_map.mp hb
    have := chunksGo_mem_ne_nil hc
    intro hcon
    exact this (List.map_eq_nil_iff.mp hcon)
  have hfmem2 : failIds ∈ (chunks200 options).map (List.map quoteId) := by
    rw [← hatt]
    exact hfmem
  refine ⟨?_, ?_,
    fetchAllQuotes_success_persists fetch options hndTok hndId hkeys hres⟩
  · rw [hatt]
    exact nodup_of_flatten_nodup hjn hnn
  · intro k hk
    rw [fetchAllQuotes_eq_fetchFold fetch options hndTok]
    unfold fetchFold
    rw [foldl_fetchStep_preserve hkeys _ _ k ?cond]
    case cond =>
      intro b hb
      by_cases hbe : b = failIds
      · subst hbe
        exact Or.inl hfail
      · exact Or.inr (flatten_nodup_unique hjn hfmem2 hk b hb hbe)

theorem batched_fetch_spec_witness :
    (fetchAllQuotes (fun _ => some []) [sampleCE, samplePE]).2.length =
      (([sampleCE, samplePE] : List Instrument).length + 199) / 200 ∧
    (∀ b ∈ (fetchAllQuotes (fun _ => some []) [sampleCE, samplePE]).2,
      b.length ≤ 200) ∧
    (fetchAllQuotes (fun _ => some []) [sampleCE, samplePE]).2.flatten =
      [sampleCE, samplePE].map quoteId ∧
    (∀ ids ∈ (fetchAllQuotes (fun _ => some []) [sampleCE, samplePE]).2,
      ∀ res, (fun _ => some ([] : List (String × Quote))) ids = some res →
      ∀ k v, (k, v) ∈ res →
        (fetchAllQuotes (fun _ => some []) [sampleCE, samplePE]).1 k = some v) ∧
    (∀ k v,
      (fetchAllQuotes (fun _ => some []) [sampleCE, samplePE]).1 k = some v →
      ∃ ids ∈ (fetchAllQuotes (fun _ => some []) [sampleCE, samplePE]).2,
        ∃ res, (fun _ => some ([] : List (String × Quote))) ids = some res ∧
          (k, v) ∈ res) :=
  batched_fetch_spec (fun _ => some []) [sampleCE, samplePE] (by decide)
    (by decide)
    (fun ids res h p hp => by cases h; exact absurd hp (List.not_mem_nil p))
    (fun ids res h => by cases h; exact List.nodup_nil)

theorem batched_fetch_partial_failure_witness :
    (fetchAllQuotes (fun _ => none) [sampleCE, samplePE]).2.Nodup ∧
    (∀ k ∈ ["NFO:XCE100", "NFO:XPE90"],
      (fetchAllQuotes (fun _ => none) [sampleCE, samplePE]).1 k = none) ∧
    (∀ ids ∈ (fetchAllQuotes (fun _ => none) [sampleCE, samplePE]).2,
      ∀ res, (fun _ => (none : Option (List (String × Quote)))) ids = some res →
      ∀ k v, (k, v) ∈ res →
        (fetchAllQuotes (fun _ => none) [sampleCE, samplePE]).1 k = some v) :=
  batched_fetch_partial_failure (fun _ => none) [sampleCE, samplePE]
    (by decide) (by decide)
    (fun _ _ h => Option.noConfusion h)
    (fun _ _ h => Option.noConfusion h)
    ["NFO:XCE100", "NFO:XPE90"] (by decide) rfl

/-! ### Scanner nearest-future selection: characterisation -/

/-- The effect of one scanner step on the expiry stored for `sym`
(an abstraction of `scannerStep` at expiry level). -/
def bestStep (today : Nat) (sym : String) (acc : Option Nat)
    (f : Instrument) : Option Nat :=
  match f.expiry with
  | some exp =>
    if today ≤ exp then
      if pyUpper f.name = sym then
        match acc with
        | none => some exp
        | some ge => if exp < ge then some exp else acc
      else acc
    else acc
  | none => acc

/-- The expiry the scanner keeps for `sym` after processing `fs`, starting
from the stored expiry `cur`. -/
def bestExp (today : Nat) (sym : String) (fs : List Instrument)
    (cur : Option Nat) : Option Nat :=
  fs.foldl (bestStep today sym) cur

theorem scannerStep_lookup_sym (today : Nat) (sym : String)
    (m : List (String × Instrument)) (f : Instrument)
    (hm : ∀ g, m.lookup sym = some g → ∃ e, g.expiry = some e ∧ today ≤ e) :
    ((scannerStep today m f).lookup sym).bind Instrument.expiry =
      bestStep today sym ((m.lookup sym).bind Instrument.expiry) f := by
  cases he : f.expiry with
  | none => simp [scannerStep, bestStep, he]
  | some exp =>
    by_cases ht : today ≤ exp
    · by_cases hname : pyUpper f.name = sym
      · subst hname
        cases hlk : m.lookup (pyUpper f.name) with
        | none =>
          have hstep : scannerStep today m f = m ++ [(pyUpper f.name, f)] := by
            simp [scannerStep, he, ht, hlk]
          rw [hstep, lookup_append, hlk]
          simp [List.lookup_cons, bestStep, he, ht, hlk]
        | some g =>
          obtain ⟨ge, hge, _⟩ := hm g hlk
          by_cases hlt : exp < ge
          · have hstep : scannerStep today m f =
                m.map (fun p => if p.1 = pyUpper f.name then (p.1, f) else p) := by
              simp [scannerStep, he, ht, hlk, hge, hlt]
            rw [hstep,
              lookup_map_update_self (k := pyUpper f.name) (f := fun _ => f) m,
              hlk]
            simp [bestStep, he, ht, hlk, hge, hlt]
          · have hstep : scannerStep today m f = m := by
              simp [scannerStep, he, ht, hlk, hge, hlt]
            rw [hstep, hlk]
            simp [bestStep, he, ht, hge, hlt]
      · have hns : sym ≠ pyUpper f.name := fun h => hname h.symm
        have hlhs : (scannerStep today m f).lookup sym = m.lookup sym := by
          cases hlk2 : m.lookup (pyUpper f.name) with
          | none =>
            simp only [scannerStep, he, if_pos ht, hlk2]
            rw [lookup_append]
            cases hms : m.lookup sym with
            | none => simp [List.lookup_cons, beq_eq_false_iff_ne.mpr hns]
            | some v => rfl
          | some g =>
            cases hge : g.expiry with
            | none => simp [scannerStep, he, ht, hlk2, hge]
            | some ge =>
              by_cases hlt : exp < ge
              · simp only [scannerStep, he, if_pos ht, hlk2, hge, if_pos hlt]
                exact lookup_map_update_other hns (fun _ => f) m
              · simp [scannerStep, he, ht, hlk2, hge, hlt]
        rw [hlhs]
        simp [bestStep, he, ht, hname]
    · simp [scannerStep, bestStep, he, ht]

theorem scannerStep_inv (today : Nat) (sym : String)
    (m : List (String × Instrument)) (f : Instrument)
    (hm : ∀ g, m.lookup sym = some g → ∃ e, g.expiry = some e ∧ today ≤ e) :
    ∀ g, (scannerStep today m f).lookup sym = some g →
      ∃ e, g.expiry = some e ∧ today ≤ e := by
  intro g hg
  cases he : f.expiry with
  | none =>
    simp only [scannerStep, he] at hg
    exact hm g hg
  | some exp =>
    by_cases ht : today ≤ exp
    · simp only [scannerStep, he, if_pos ht] at hg
      cases hlk2 : m.lookup (pyUpper f.name) with
      | none =>
        simp only [hlk2] at hg
        rw [lookup_append] at hg
        cases hms : m.lookup sym with
        | some v =>
          rw [hms] at hg
          cases hg
          exact hm _ hms
        | none =>
          rw [hms] at hg
          by_cases hns : sym = pyUpper f.name
          · rw [List.lookup_cons, beq_iff_eq.mpr hns] at hg
            cases hg
            exact ⟨exp, he, ht⟩
          · simp [List.lookup_cons, beq_eq_false_iff_ne.mpr hns] at hg
      | some g2 =>
        cases hge : g2.expiry with
        | none =>
          simp only [hlk2, hge] at hg
          exact hm g hg
        | some ge =>
          simp only [hlk2, hge] at hg
          by_cases hlt : exp < ge
          · rw [if_pos hlt] at hg
            by_cases hns : sym = pyUpper f.name
            · subst hns
              rw [lookup_map_update_self (k := pyUpper f.name)
                (f := fun _ => f) m] at hg
              cases hms : m.lookup (pyUpper f.name) with
              | none =>
                rw [hms] at hg
                exact Option.noConfusion hg
              | some v =>
                rw [hms] at hg
                cases hg
                exact ⟨exp, he, ht⟩
            · rw [lookup_map_update_other hns] at hg
              exact hm g hg
          · rw [if_neg hlt] at hg
            exact hm g hg
    · simp only [scannerStep, he, if_neg ht] at hg
      exact hm g hg

theorem scanner_lookup_bestExp (today : Nat) (sym : String) :
    ∀ (fs : List Instrument) (m : List (String × Instrument)),
      (∀ g, m.lookup sym = some g → ∃ e, g.expiry = some e ∧ today ≤ e) →
      ((fs.foldl (scannerStep today) m).lookup sym).bind Instrument.expiry =
        bestExp today sym fs ((m.lookup sym).bind Instrument.expiry) := by
  intro fs
  induction fs with
  | nil =>
    intro m _
    rfl
  | cons f rest ih =>
    intro m hm
    rw [List.foldl_cons,
      ih (scannerStep today m f) (scannerStep_inv today sym m f hm)]
    unfold bestExp
    rw [List.foldl_cons, scannerStep_lookup_sym today sym m f hm]

theorem bestExp_spec (today : Nat) (sym : String) :
    ∀ (fs : List Instrument) (cur : Option Nat),
      (∀ e, cur = some e → today ≤ e) →
      ((bestExp today sym fs cur = none ∧ cur = none ∧
          ∀ f ∈ fs, pyUpper f.name = sym → ∀ e, f.expiry = some e →
            ¬ today ≤ e) ∨
        (∃ m, bestExp today sym fs cur = some m ∧ today ≤ m ∧
          (cur = some m ∨ ∃ f ∈ fs, pyUpper f.name = sym ∧ f.expiry = some m) ∧
          (∀ e, cur = some e → m ≤ e) ∧
          (∀ f ∈ fs, pyUpper f.name = sym → ∀ e, f.expiry = some e →
            today ≤ e → m ≤ e))) := by
  intro fs
  induction fs with
  | nil =>
    intro cur hcur
    cases cur with
    | none => exact Or.inl ⟨rfl, rfl, by simp⟩
    | some e =>
      refine Or.inr ⟨e, rfl, hcur e rfl, Or.inl rfl, ?_, by simp⟩
      intro e2 he2
      cases he2
      exact le_refl e
  | cons f rest ih =>
    intro cur hcur
    by_cases hcond : ∃ exp, f.expiry = some exp ∧ today ≤ exp ∧
        pyUpper f.name = sym
    · obtain ⟨exp, he, ht, hname⟩ := hcond
      cases cur with
      | none =>
        have hcur2 : bestStep today sym none f = some exp := by
          simp [bestStep, he, ht, hname]
        rcases ih (bestStep today sym none f)
            (by rw [hcur2]; intro e h; cases h; exact ht) with hL | hR
        · rw [hcur2] at hL
          exact absurd hL.2.1 (by simp)
        · obtain ⟨m, hbe, htm, hmem, hcmin, hfmin⟩ := hR
          rw [hcur2] at hmem hcmin
          refine Or.inr ⟨m, hbe, htm, ?_, ?_, ?_⟩
          · rcases hmem with hc | ⟨f2, hf2, hn2, he2⟩
            · cases hc
              exact Or.inr ⟨f, List.mem_cons_self _ _, hname, he⟩
            · exact Or.inr ⟨f2, List.mem_cons_of_mem _ hf2, hn2, he2⟩
          · intro e hce
            cases hce
          · intro f2 hf2 hn2 e2 he2 hte2
            rcases List.mem_cons.mp hf2 with rfl | hf2
            · rw [he] at he2
              cases he2
              exact hcmin exp rfl
            · exact hfmin f2 hf2 hn2 e2 he2 hte2
      | some ge =>
        have hge := hcur ge rfl
        by_cases hlt : exp < ge
        · have hcur2 : bestStep today sym (some ge) f = some exp := by
            simp [bestStep, he, ht, hname, hlt]
          rcases ih (bestStep today sym (some ge) f)
              (by rw [hcur2]; intro e h; cases h; exact ht) with hL | hR
          · rw [hcur2] at hL
            exact absurd hL.2.1 (by simp)
          · obtain ⟨m, hbe, htm, hmem, hcmin, hfmin⟩ := hR
            rw [hcur2] at hmem hcmin
            refine Or.inr ⟨m, hbe, htm, ?_, ?_, ?_⟩
            · rcases hmem with hc | ⟨f2, hf2, hn2, he2⟩
              · cases hc
                exact Or.inr ⟨f, List.mem_cons_self _ _, hname, he⟩
              · exact Or.inr ⟨f2, List.mem_cons_of_mem _ hf2, hn2, he2⟩
            · intro e hce
              cases hce
              exact le_trans (hcmin exp rfl) (le_of_lt hlt)
            · intro f2 hf2 hn2 e2 he2 hte2
              rcases List.mem_cons.mp hf2 with rfl | hf2
              · rw [he] at he2
                cases he2
                exact hcmin exp rfl
              · exact hfmin f2 hf2 hn2 e2 he2 hte2
        · have hcur2 : bestStep today sym (some ge) f = some ge := by
            simp [bestStep, he, ht, hname, hlt]
          rcases ih (bestStep today sym (some ge) f)
              (by rw [hcur2]; intro e h; cases h; exact hge) with hL | hR
          · rw [hcur2] at hL
            exact absurd hL.2.1 (by simp)
          · obtain ⟨m, hbe, htm, hmem, hcmin, hfmin⟩ := hR
            rw [hcur2] at hmem hcmin
            refine Or.inr ⟨m, hbe, htm, ?_, ?_, ?_⟩
            · rcases hmem with hc | ⟨f2, hf2, hn2, he2⟩
              · exact Or.inl hc
              · exact Or.inr ⟨f2, List.mem_cons_of_mem _ hf2, hn2, he2⟩
            · intro e hce
              cases hce
              exact hcmin ge rfl
            · intro f2 hf2 hn2 e2 he2 hte2
              rcases List.mem_cons.mp hf2 with rfl | hf2
              · rw [he] at he2
                cases he2
                exact le_trans (hcmin ge rfl) (Nat.le_of_not_lt hlt)
              · exact hfmin f2 hf2 hn2 e2 he2 hte2
    · have hcur2 : bestStep today sym cur f = cur := by
        cases he : f.expiry with
        | none => simp [bestStep, he]
        | some exp =>
          by_cases ht : today ≤ exp
          · by_cases hname : pyUpper f.name = sym
            · exact absurd ⟨exp, he, ht, hname⟩ hcond
            · simp [bestStep, he, ht, hname]
          · simp [bestStep, he, ht]
      rcases ih (bestStep today sym cur f) (by rw [hcur2]; exact hcur)
          with hL | hR
      · refine Or.inl ⟨hL.1, hcur2.symm.trans hL.2.1, ?_⟩
        intro f2 hf2 hn2 e2 he2 hte2
        rcases List.mem_cons.mp hf2 with rfl | hf2
        · exact hcond ⟨e2, he2, hte2, hn2⟩
        · exact hL.2.2 f2 hf2 hn2 e2 he2 hte2
      · obtain ⟨m, hbe, htm, hmem, hcmin, hfmin⟩ := hR
        rw [hcur2] at hmem hcmin
        refine Or.inr ⟨m, hbe, htm, ?_, hcmin, ?_⟩
        · rcases hmem with hc | ⟨f2, hf2, hn2, he2⟩
          · exact Or.inl hc
          · exact Or.inr ⟨f2, List.mem_cons_of_mem _ hf2, hn2, he2⟩
        · intro f2 hf2 hn2 e2 he2 hte2
          rcases List.mem_cons.mp hf2 with rfl | hf2
          · exact absurd ⟨e2, he2, hte2, hn2⟩ hcond
          · exact hfmin f2 hf2 hn2 e2 he2 hte2

theorem selectedExpiry_least_upcoming (options : List Instrument) (today : Nat)
    (hup : ∃ o ∈ options, ∃ e, o.expiry = some e ∧ today ≤ e) :
    ∃ m, selectedExpiry options today = some m ∧ today ≤ m ∧
      (∃ o ∈ options, o.expiry = some m) ∧
      ∀ o ∈ options, ∀ e, o.expiry = some e → today ≤ e → m ≤ e := by
  have hmem : ∀ e : Nat,
      e ∈ sortedDedup (options.filterMap (·.expiry)) ↔
        ∃ o ∈ options, o.expiry = some e := by
    intro e
    rw [mem_sortedDedup, List.mem_filterMap]
  unfold selectedExpiry
  cases hh : ((sortedDedup (options.filterMap (·.expiry))).filter
      (fun e => today ≤ e)).head? with
  | some nearest =>
    obtain ⟨hin, hupn, hmin⟩ := head_filter_isLeast sorted_sortedDedup hh
    exact ⟨nearest, rfl, of_decide_eq_true hupn, (hmem nearest).mp hin,
      fun o ho e he hte => hmin e ((hmem e).mpr ⟨o, ho, he⟩)
        (decide_eq_true hte)⟩
  | none =>
    obtain ⟨o, ho, e, he, hte⟩ := hup
    exact absurd (decide_eq_true hte)
      (filter_head?_eq_none.mp hh e ((hmem e).mpr ⟨o, ho, he⟩))

theorem mem_scannerFutures_iff (nfo : List Instrument) (targets : List String)
    (sym : String) (hsym : sym ∈ targets) (f : Instrument) :
    (f ∈ scannerFutures nfo targets ∧ pyUpper f.name = sym) ↔
      f ∈ nfo.filter (fun i =>
        i.instrument_type == "FUT" && pyUpper i.name == sym) := by
  unfold scannerFutures
  rw [List.mem_filter, List.mem_filter]
  simp only [Bool.and_eq_true, beq_iff_eq, decide_eq_true_eq]
  constructor
  · rintro ⟨⟨hmem, htype, hintargets⟩, hname⟩
    exact ⟨hmem, htype, hname⟩
  · rintro ⟨hmem, htype, hname⟩
    exact ⟨⟨hmem, htype, by rw [hname]; exact hsym⟩, hname⟩

/-- A future whose expiry lies before the reference date. -/
def pastFut : Instrument := ⟨11, "XFUT", "X", "FUT", some 5, 0, 1⟩

/-- A future whose expiry lies after the reference date. -/
def upcomingFut : Instrument := ⟨12, "XF2", "X", "FUT", some 30, 0, 1⟩

/-- **C8 counterexample**: on a catalog whose only future for "X" expired in
the past (day 5, today = day 10), the scanner selects nothing for "X",
whereas the option-chain expiry-selection logic applied to the symbol's
futures falls back to that latest past expiry and selects day 5 — so the two
computations differ. -/
theorem scanner_no_fallback_cex :
    scannerSelectedExpiry (scannerFutures [pastFut] ["X"]) 10 "X" = none ∧
    selectedExpiry ([pastFut].filter (fun i =>
      i.instrument_type == "FUT" && pyUpper i.name == "X")) 10 = some 5 :=
  ⟨by decide, by decide⟩

/-- **C8 amended**: for every catalog and target-symbol set, whenever the
symbol has at least one future expiring on or after today, the scanner's
per-symbol selection computes the same expiry as the option-chain builder's
expiry-selection step applied to that symbol's futures (the earliest expiry
on or after today); but when no future of the symbol is upcoming the scanner
selects nothing at all — it has no fallback to the latest past expiry,
unlike the builder's step. -/
theorem scanner_vs_chain_expiry (nfo : List Instrument) (targets : List String)
    (today : Nat) (sym : String) (hsym : sym ∈ targets) :
    ((∃ f ∈ nfo.filter (fun i =>
        i.instrument_type == "FUT" && pyUpper i.name == sym),
        ∃ e, f.expiry = some e ∧ today ≤ e) →
      scannerSelectedExpiry (scannerFutures nfo targets) today sym =
        selectedExpiry (nfo.filter (fun i =>
          i.instrument_type == "FUT" && pyUpper i.name == sym)) today) ∧
    ((¬ ∃ f ∈ nfo.filter (fun i =>
        i.instrument_type == "FUT" && pyUpper i.name == sym),
        ∃ e, f.expiry = some e ∧ today ≤ e) →
      scannerSelectedExpiry (scannerFutures nfo targets) today sym = none) := by
  have hbe : scannerSelectedExpiry (scannerFutures nfo targets) today sym =
      bestExp today sym (scannerFutures nfo targets) none := by
    unfold scannerSelectedExpiry futures_by_symbol
    rw [scanner_lookup_bestExp today sym (scannerFutures nfo targets) []
      (fun g hg => Option.noConfusion hg)]
    rfl
  rcases bestExp_spec today sym (scannerFutures nfo targets) none
      (fun e h => Option.noConfusion h) with hL | hR
  · obtain ⟨hnone, _, hnoup⟩ := hL
    constructor
    · intro hup
      obtain ⟨f, hf, e, he, hte⟩ := hup
      have hf2 := (mem_scannerFutures_iff nfo targets sym hsym f).mpr hf
      exact absurd hte (hnoup f hf2.1 hf2.2 e he)
    · intro _
      rw [hbe, hnone]
  · obtain ⟨m, hsome, htm, hmem, _, hfmin⟩ := hR
    have hmemf : ∃ f ∈ nfo.filter (fun i =>
        i.instrument_type == "FUT" && pyUpper i.name == sym),
        f.expiry = some m := by
      rcases hmem with hc | ⟨f, hf, hn, he⟩
      · exact Option.noConfusion hc
      · exact ⟨f, (mem_scannerFutures_iff nfo targets sym hsym f).mp
          ⟨hf, hn⟩, he⟩
    constructor
    · intro hup
      obtain ⟨m2, hsel, htm2, hmem2, hmin2⟩ :=
        selectedExpiry_least_upcoming _ today hup
      have h1 : m ≤ m2 := by
        obtain ⟨o2, ho2, he2⟩ := hmem2
        have ho2s := (mem_scannerFutures_iff nfo targets sym hsym o2).mpr ho2
        exact hfmin o2 ho2s.1 ho2s.2 m2 he2 htm2
      have h2 : m2 ≤ m := by
        obtain ⟨f, hf, he⟩ := hmemf
        exact hmin2 f hf m he htm
      rw [hbe, hsome, hsel, le_antisymm h1 h2]
    · intro hnot
      obtain ⟨f, hf, he⟩ := hmemf
      exact absurd ⟨f, hf, m, he, htm⟩ hnot

theorem scanner_vs_chain_expiry_witness :
    ((∃ f ∈ [upcomingFut, pastFut].filter (fun i =>
        i.instrument_type == "FUT" && pyUpper i.name == "X"),
        ∃ e, f.expiry = some e ∧ 10 ≤ e) →
      scannerSelectedExpiry (scannerFutures [upcomingFut, pastFut] ["X"]) 10 "X" =
        selectedExpiry ([upcomingFut, pastFut].filter (fun i =>
          i.instrument_type == "FUT" && pyUpper i.name == "X")) 10) ∧
    ((¬ ∃ f ∈ [upcomingFut, pastFut].filter (fun i =>
        i.instrument_type == "FUT" && pyUpper i.name == "X"),
        ∃ e, f.expiry = some e ∧ 10 ≤ e) →
      scannerSelectedExpiry (scannerFutures [upcomingFut, pastFut] ["X"]) 10 "X" =
        none) :=
  scanner_vs_chain_expiry [upcomingFut, pastFut] ["X"] 10 "X" (by decide)

end FnoDashboard
